import Mathlib

/-!
# Verification of the GEjs Grammatical Evolution engine

A shallow embedding of `src/GEbrowser.js` (the `GE` class and its helper
functions) together with proofs about the embedded definitions.

Conventions used throughout:

* JavaScript arrays become `List`s; a JS object used as a map becomes an
  association list `List (String × _)` (`Object.entries` order is insertion
  order, which the association list preserves).
* A JS computation that can hang (an unbounded `while` loop), throw a
  `TypeError`, or return normally is modelled by the `JsOut` type below.
  Unbounded loops are embedded with an explicit fuel argument; fuel is chosen
  so that fuel exhaustion coincides exactly with divergence of the original
  loop (this is argued at each use site).
* A fitness slot holds a JS value that is either `null` (its initial value),
  `undefined` (the result of reading a missing array element), or a number;
  numbers are modelled by `Int` (every number the claims exercise is an
  integer).  JS comparison coerces `null` to `0` and makes every comparison
  with `undefined` false; `jsGE`/`jsLE` below implement exactly that.
* The Mersenne twister `mt` and the lodash sampling helpers are external
  libraries, not repository code; their outputs are supplied by an oracle
  (`Orc`): a stream of `mt.int()` values, a stream of `mt.random()` values
  and a stream of index pairs chosen by `_.sampleSize(·, 2)`.
-/

namespace GEjs

/-- A JS value stored in the fitness slot of an individual
(`ind[3]`): `null` initially, possibly `undefined` after a bad
assignment, otherwise a number. -/
inductive JFit where
  | null : JFit
  | undef : JFit
  | num : Int → JFit
deriving DecidableEq, Repr

/-- Numeric coercion used by JS `>=` / `<=`: `null` coerces to `0`,
`undefined` coerces to NaN (`none`), numbers to themselves. -/
def JFit.toNum : JFit → Option Int
  | .null => some 0
  | .undef => none
  | .num v => some v

/-- JS `a >= b` on fitness values: NaN (from `undefined`) makes the
comparison false. -/
def jsGE (a b : JFit) : Bool :=
  match a.toNum, b.toNum with
  | some x, some y => x ≥ y
  | _, _ => false

/-- JS `a <= b` on fitness values. -/
def jsLE (a b : JFit) : Bool :=
  match a.toNum, b.toNum with
  | some x, some y => x ≤ y
  | _, _ => false

/-- JS truthiness of a fitness value (`_.filter(this.pop, function(x) { return x[3] })`):
`null`, `undefined` and `0` are falsy, every other number is truthy. -/
def jsTruthy : JFit → Bool
  | .null => false
  | .undef => false
  | .num v => v ≠ 0

/-- An individual `[genome, phenotype, used_codons, fitness]`. -/
structure Ind where
  genome : List Nat
  phen : String
  usedC : Nat
  fit : JFit
deriving DecidableEq, Repr

/-- Outcome of running a piece of JS code: it can hang in an unbounded
loop, throw a `TypeError`, or return a value. -/
inductive JsOut (α : Type) where
  | hang : JsOut α
  | throw : JsOut α
  | ret : α → JsOut α
deriving DecidableEq, Repr

/-! ## Grammar model (`loadGrammar`, `getTerminals`, `getRecursiveNTs`,
`getGrammarLCM`, `gcd`, `lcm`, `lcmAll`) -/

/-- `sym.startsWith("<") && sym.endsWith(">")` — the naming convention that
distinguishes nonterminals.  Stated on the character list of the string,
which is semantically the same test. -/
def isNTShaped (s : String) : Bool :=
  (s.data.head? = some '<') && (s.data.getLast? = some '>')

/-- `getTerminals`: every symbol occurring in some production that is not
`<...>`-shaped.  The code collects them into a `Set`; only membership
matters, so a duplicate-keeping list is an adequate model. -/
def getTerminals (rules : List (String × List (List String))) : List String :=
  rules.flatMap (fun pr => pr.2.flatMap (fun prod => prod.filter (fun sym => !isNTShaped sym)))

/-- `getRecursiveNTs`: the left-hand sides one of whose own productions
mentions the left-hand side itself (direct recursion only). -/
def getRecursiveNTs (rules : List (String × List (List String))) : List String :=
  (rules.filter (fun pr => pr.2.any (fun prod => prod.contains pr.1))).map (fun pr => pr.1)

/-- `const gcd = (a, b) => b == 0 ? a : gcd (b, a % b)`, embedded with a
structural fuel argument (fuel `b` always suffices because the second
argument strictly decreases). -/
def gcdAux : Nat → Nat → Nat → Nat
  | _, a, 0 => a
  | 0, a, _ => a
  | fuel + 1, a, b => gcdAux fuel b (a % b)

/-- The source's `gcd` helper. -/
def gcdJs (a b : Nat) : Nat := gcdAux b a b

/-- `const lcm = (a, b) => a / gcd (a, b) * b`.  (On the naturals the
claims exercise, JS division here is exact; at `a = b = 0` JS produces
`NaN` where this returns `0`, a case no valid grammar reaches.) -/
def lcmJs (a b : Nat) : Nat := a / gcdJs a b * b

/-- `const lcmAll = (ns) => ns.reduce (lcm, 1)`. -/
def lcmAll (ns : List Nat) : Nat := ns.foldl lcmJs 1

/-- `getGrammarLCM`: least common multiple of the production counts. -/
def getGrammarLCM (rules : List (String × List (List String))) : Nat :=
  lcmAll (rules.map (fun pr => pr.2.length))

/-- The grammar object built by `loadGrammar`: the parsed rules plus the
start symbol (the first `<...>` symbol of the grammar text).  The derived
fields (`terminals`, `recursive_NTs`, `LCM`) are recomputed from `rules`
by the functions above wherever the class consults them. -/
structure Grammar where
  rules : List (String × List (List String))
  start : String
deriving DecidableEq, Repr

/-- Lookup `this.grammar.rules[s]`. -/
def rulesLookup (rules : List (String × List (List String))) (s : String) :
    Option (List (List String)) :=
  (rules.find? (fun pr => pr.1 = s)).map (fun pr => pr.2)

/-! ## The genome iterator and the mapper
(`genomeIterator`, `mapGenomeToPhenotype`, `mapGenomeToIndividual`) -/

/-- The state held by `genomeIterator(g)`: the genome array it ranges over
and the position of the next unread codon.  The genome list is carried
through the whole derivation so that the frame property (the mapper never
changes it) is a statement about the embedding, not a triviality. -/
structure MState where
  genome : List Nat
  cursor : Nat
deriving DecidableEq, Repr

/-- One `g.next()` step: either `{done: true}` or the pair
`[index, codon]` together with the advanced iterator. -/
def mnext (st : MState) : Option (Nat × Nat × MState) :=
  match st.genome.get? st.cursor with
  | none => none
  | some codon => some (st.cursor, codon, ⟨st.genome, st.cursor + 1⟩)

/-- The depth-bound escape loop of `mapGenomeToPhenotype`:

`while (p.indexOf(s) != -1) { codon = (codon + 1) % this.maxcodon; p = r[codon % r.length]; }`

returning the final codon value.  `fuel` bounds the number of looked-at
codons; because codon values cycle with period `maxcodon`, running the
loop `maxcodon` times visits every production it can ever visit, so with
`fuel = maxcodon` the result `none` holds exactly when the JS loop never
terminates. -/
def escapeLoop (s : String) (r : List (List String)) (maxcodon : Nat) :
    Nat → Nat → Option Nat
  | _, 0 => none
  | codon, fuel + 1 =>
    let p := r.getD (codon % r.length) []
    if p.contains s then escapeLoop s r maxcodon ((codon + 1) % maxcodon) fuel
    else some codon

/-- Expansion of the symbols of a production, left to right, threading the
iterator state; `rec` is the recursive call into `mapGenomeToPhenotype`
for nonterminal symbols.  Terminals are appended directly; a `null` from a
sub-derivation propagates. -/
def mapSymsWith (terminals : List String)
    (rec : String → MState → JsOut (Option (String × MState))) :
    List String → MState → JsOut (Option (String × MState))
  | [], st => .ret (some ("", st))
  | sym :: rest, st =>
    if terminals.contains sym then
      match mapSymsWith terminals rec rest st with
      | .hang => .hang
      | .throw => .throw
      | .ret none => .ret none
      | .ret (some (str, st')) => .ret (some (sym ++ str, st'))
    else
      match rec sym st with
      | .hang => .hang
      | .throw => .throw
      | .ret none => .ret none
      | .ret (some (str, st')) =>
        match mapSymsWith terminals rec rest st' with
        | .hang => .hang
        | .throw => .throw
        | .ret none => .ret none
        | .ret (some (str2, st2)) => .ret (some (str ++ str2, st2))

/-- `mapGenomeToPhenotype(g, depth, s)`.  Returns the expansion text and
the iterator state after it, `.ret none` for the source's `return null`
(codon exhaustion), `.throw` for a `TypeError` (undeclared nonterminal or
empty production list), and `.hang` when the depth-bound escape loop runs
forever.  `fuel` only bounds the recursion depth; every call consumes a
codon before recursing, so `g.length + 1` units never run out (callers use
that). -/
def mapGenomeToPhenotype (G : Grammar) (maxdepth : Nat) :
    Nat → Nat → String → MState → JsOut (Option (String × MState))
  | 0, _, _, _ => .hang
  | fuel + 1, depth, s, st =>
    match rulesLookup G.rules s with
    | none => .throw
    | some r =>
      match mnext st with
      | none => .ret none
      | some (_, codon, st') =>
        if r.length = 0 then .throw
        else
          let maxcodon := getGrammarLCM G.rules
          let p := r.getD (codon % r.length) []
          if depth ≥ maxdepth && (getRecursiveNTs G.rules).contains s then
            if maxcodon = 0 then
              -- `maxcodon = 0` needs a zero-production nonterminal elsewhere;
              -- the while loop is skipped when `p` is not directly recursive,
              -- and otherwise its first iteration computes `r[NaN]` and the
              -- next `p.indexOf` call throws.
              if p.contains s then .throw
              else
                mapSymsWith (getTerminals G.rules)
                  (fun sym stx => mapGenomeToPhenotype G maxdepth fuel (depth + 1) sym stx)
                  p st'
            else
              match escapeLoop s r maxcodon codon maxcodon with
              | none => .hang
              | some codon' =>
                mapSymsWith (getTerminals G.rules)
                  (fun sym stx => mapGenomeToPhenotype G maxdepth fuel (depth + 1) sym stx)
                  (r.getD (codon' % r.length) []) st'
          else
            mapSymsWith (getTerminals G.rules)
              (fun sym stx => mapGenomeToPhenotype G maxdepth fuel (depth + 1) sym stx)
              p st'

/-- `mapGenomeToIndividual(g)`: run the mapper from the start symbol at
depth 0, then compute `c = i.next().value[0] - 1`.  When the derivation
consumed the whole genome, `i.next()` yields `{done: true, value:
undefined}` and `value[0]` throws a `TypeError`. -/
def mapGenomeToIndividual (G : Grammar) (maxdepth : Nat) (g : List Nat) :
    JsOut (Option Ind) :=
  match mapGenomeToPhenotype G maxdepth (g.length + 1) 0 G.start ⟨g, 0⟩ with
  | .hang => .hang
  | .throw => .throw
  | .ret none => .ret none
  | .ret (some (p, st)) =>
    match mnext st with
    | none => .throw
    | some (k, _, _) => .ret (some ⟨st.genome, p, k - 1, .null⟩)

/-! ### Concrete grammars used by the spec's examples and by the
counterexamples -/

/-- The spec's example grammar. -/
def exG : Grammar := ⟨[("<e>", [["0"], ["1"], ["<e>", "<e>"]])], "<e>"⟩

/-- A grammar whose only nonterminal has only directly-recursive
productions: every escape attempt at the depth bound fails. -/
def recG : Grammar := ⟨[("<e>", [["<e>"]])], "<e>"⟩

/-! ## Genetic operators (`randrange`, `crossover`, `mutate`, `random_ind`) -/

/-- `function randrange(n) { return mt.int() % n; }` applied to the draw
`mt.int()`: `none` models the JS result `NaN` when `n = 0`. -/
def randrange (draw n : Nat) : Option Nat :=
  if n = 0 then none else some (draw % n)

/-- `crossover(g0, g1, c0, c1)` with the value of the single `mt.int()`
draw passed in.  When `min c0 c1 = 0` the cut index is `NaN`, and both
`slice(0, NaN)` and `slice(NaN)` behave as a cut at `0`; the embedding
uses `0` in that case, which gives the identical lists. -/
def crossover (g0 g1 : List Nat) (c0 c1 : Nat) (draw : Nat) :
    List Nat × List Nat :=
  let c := min c0 c1
  let idx := (randrange draw c).getD 0
  (g0.take idx ++ g1.drop idx, g1.take idx ++ g0.drop idx)

/-- `mutate(g, c)` with the two `mt.int()` draws passed in.  When `c = 0`
the index is `NaN` and `g[NaN] = v` stores a non-index property, leaving
every element of the array unchanged; the embedding returns `g`.  A `NaN`
replacement value (only possible when `maxcodon = 0`) is modelled by `0`;
no valid grammar reaches it. -/
def mutate (g : List Nat) (c : Nat) (maxcodon : Nat) (drawIdx drawVal : Nat) :
    List Nat :=
  match randrange drawIdx c with
  | none => g
  | some idx => g.set idx ((randrange drawVal maxcodon).getD 0)

/-- `random_ind()`: `genomelength` fresh draws of `randrange(this.maxcodon)`.
The draws are `mt.int()` values `draws 0, draws 1, ...`. -/
def random_ind (genomelength maxcodon : Nat) (draws : Nat → Nat) : List Nat :=
  (List.range genomelength).map (fun t => (randrange (draws t) maxcodon).getD 0)

/-! ## Selection (`truncation_selection`, `direct_selection`) and the
`tell` sort -/

/-- `Array.prototype.slice(start, end)`: the elements at indices
`[start, end)`. -/
def jsSlice {α : Type} (l : List α) (a b : Nat) : List α :=
  (l.take b).drop a

/-- The sort key a population member contributes to `_.sortBy`:
its fitness as a number.  (`tell` assigns every fitness before sorting;
the claims only exercise numeric fitness, so `null`/`undefined` are
mapped to `0` here.) -/
def fitKey (i : Ind) : Int :=
  match i.fit with
  | .num v => v
  | _ => 0

/-- `_.sortBy(pop, [key])` is a stable ascending sort by `key`; a stable
sort's output is uniquely determined by its input, so the structurally
recursive insertion sort is extensionally the lodash sort. -/
def sortByKey (key : Ind → Int) (pop : List Ind) : List Ind :=
  pop.insertionSort (fun a b => key a ≤ key b)

/-- The sort performed by `tell` in autonomous mode:
ascending by `x[3]` when maximising, ascending by `-x[3]` when
minimising. -/
def tellSort (maximise : Bool) (pop : List Ind) : List Ind :=
  if maximise then sortByKey fitKey pop
  else sortByKey (fun x => -(fitKey x)) pop

/-- What the claim says the sort is (`sort the population by fitness
ascending when minimizing, by negated fitness ascending when maximizing`);
written from the spec's words, to be compared with `tellSort`. -/
def specSort (maximise : Bool) (pop : List Ind) : List Ind :=
  if maximise then sortByKey (fun x => -(fitKey x)) pop
  else sortByKey fitKey pop

/-- `truncation_selection()`:
`this.pop.slice(Math.floor(this.popsize * this.trunc), this.popsize-1)`. -/
def truncation_selection (popsize : Nat) (trunc : ℚ) (pop : List Ind) : List Ind :=
  jsSlice pop (Int.toNat ⌊(popsize : ℚ) * trunc⌋) (popsize - 1)

/-- `direct_selection()`: the members with truthy fitness, or the whole
population when there are none. -/
def direct_selection (pop : List Ind) : List Ind :=
  let parents := pop.filter (fun x => jsTruthy x.fit)
  if parents.length = 0 then pop else parents

/-! ## Best-ever scan (`tell`, lines updating `this.best_ever`) -/

/-- The `tell` loop
`for i: if ((maximise && pop[i][3] >= best_ever[3]) || (!maximise && pop[i][3] <= best_ever[3])) best_ever = pop[i]`
as a fold over the population in scan order. -/
def bestScan (maximise : Bool) (b : Ind) (pop : List Ind) : Ind :=
  pop.foldl
    (fun b x =>
      if (maximise && jsGE x.fit b.fit) || (!maximise && jsLE x.fit b.fit) then x else b)
    b

/-! ## Duplicate suppression (`mapAndTryAddIndToPop`) -/

/-- `mapAndTryAddIndToPop(g, pop)` acting on the novelty cache and a
population: map the genome; on success, admit the individual only when
its phenotype is not yet in the cache, recording the phenotype.  The
mapper's `.hang`/`.throw` outcomes abort the whole program, handled by
the caller. -/
def mapAndTryAddIndToPop (G : Grammar) (maxdepth : Nat)
    (cache : List String) (pop : List Ind) (g : List Nat) :
    JsOut (List String × List Ind) :=
  match mapGenomeToIndividual G maxdepth g with
  | .hang => .hang
  | .throw => .throw
  | .ret none => .ret (cache, pop)
  | .ret (some ind) =>
    if cache.contains ind.phen then .ret (cache, pop)
    else .ret (cache ++ [ind.phen], pop ++ [ind])

/-- Every admission the engine ever performs goes through
`mapAndTryAddIndToPop` (initialisation and the offspring/random fills of
`create_new_pop`); the only other push, the elitism push, re-inserts an
individual object that is already a member of the previous population.
`runAdmissions` folds the admission gate over an arbitrary sequence of
candidate genomes, accumulating the cache and the list of all distinct
individuals ever admitted; a mapper abort ends the run. -/
def runAdmissions (G : Grammar) (maxdepth : Nat) :
    List (List Nat) → List String → List Ind → List String × List Ind
  | [], cache, acc => (cache, acc)
  | g :: gs, cache, acc =>
    match mapAndTryAddIndToPop G maxdepth cache acc g with
    | .hang => (cache, acc)
    | .throw => (cache, acc)
    | .ret (cache', acc') => runAdmissions G maxdepth gs cache' acc'

/-! ## The engine state with reference semantics

JS individuals are mutable arrays shared by reference: `this.best_ever`
aliases a member of `this.pop`, and `this.pop[i][3] = fitvals[i]` mutates
the shared object.  The heap model makes that explicit: individuals live
in a heap (indexed by allocation order), and the population and
`best_ever` hold heap indices. -/

/-- The mutable state of one `GE` instance: the heap of every individual
ever allocated, the current population (`this.pop`) as heap indices,
`this.best_ever` as a heap index (`none` = `null`), and the novelty cache
(`this.cache`). -/
structure EState where
  heap : List Ind
  popIds : List Nat
  bestId : Option Nat
  cache : List String
deriving DecidableEq, Repr

/-- The random sources consumed by the engine, as oracles: `ints k` is the
`k`-th `mt.int()` value, `reals k` the `k`-th `mt.random()` value, and
`picks k` the pair of positions (into the parent pool) that the `k`-th
`_.sampleSize(parents, 2)` call selects. -/
structure Orc where
  ints : Nat → Nat
  reals : Nat → ℚ
  picks : Nat → Nat × Nat

/-- Counters into the three oracle streams. -/
structure OCtr where
  i : Nat
  r : Nat
  p : Nat
deriving DecidableEq, Repr

/-- The configuration fixed at construction.  `maximise` is
`this.fitness.maximise` (`true` for the interactive dummy fitness). -/
structure Cfg where
  G : Grammar
  popsize : Nat
  pmut : ℚ
  trunc : ℚ
  maxdepth : Nat
  genomelength : Nat
  interactive : Bool
  maximise : Bool

/-- `this.maxcodon = this.grammar.LCM`. -/
def Cfg.maxcodon (cfg : Cfg) : Nat := getGrammarLCM cfg.G.rules

/-- The fitness-assignment loop of `tell`:
`for (i = 0; i < popsize; i++) this.pop[i][3] = fitvals[i]`.
Reading past the end of `fitvals` yields `undefined`, which is stored;
reading past the end of `this.pop` throws (`undefined[3] = ...`), with
the updates made so far kept (the second component records whether the
loop threw). -/
def assignLoop (popIds : List Nat) (fitvals : List Int) :
    Nat → Nat → List Ind → List Ind × Bool
  | _, 0, heap => (heap, false)
  | i, n + 1, heap =>
    match popIds.get? i with
    | none => (heap, true)
    | some id =>
      match heap.get? id with
      | none => (heap, true)
      | some ind =>
        let f : JFit := match fitvals.get? i with
          | some v => JFit.num v
          | none => JFit.undef
        assignLoop popIds fitvals (i + 1) n (heap.set id { ind with fit := f })

/-- The best-ever update loop of `tell`, over heap indices.  Comparing
against a `null` `best_ever` (`tell` before `init`) throws. -/
def bestScanLoop (maximise : Bool) (heap : List Ind) (popIds : List Nat) :
    Nat → Nat → Option Nat → JsOut (Option Nat)
  | _, 0, bestId => .ret bestId
  | i, n + 1, bestId =>
    match popIds.get? i with
    | none => .throw
    | some id =>
      match bestId with
      | none => .throw
      | some bid =>
        match heap.get? id, heap.get? bid with
        | some ind, some bind =>
          let repl := (maximise && jsGE ind.fit bind.fit) ||
                      (!maximise && jsLE ind.fit bind.fit)
          bestScanLoop maximise heap popIds (i + 1) n (if repl then some id else some bid)
        | _, _ => .throw

/-- `direct_selection` over heap indices. -/
def direct_selectionH (heap : List Ind) (popIds : List Nat) : List Nat :=
  let parents := popIds.filter (fun id =>
    match heap.get? id with
    | some ind => jsTruthy ind.fit
    | none => false)
  if parents.length = 0 then popIds else parents

/-- The sort key of a heap index. -/
def heapKey (heap : List Ind) (id : Nat) : Int :=
  match heap.get? id with
  | some ind => fitKey ind
  | none => 0

/-- The `tell` sort over heap indices. -/
def sortH (maximise : Bool) (heap : List Ind) (popIds : List Nat) : List Nat :=
  if maximise then popIds.insertionSort (fun a b => heapKey heap a ≤ heapKey heap b)
  else popIds.insertionSort (fun a b => -(heapKey heap a) ≤ -(heapKey heap b))

/-- `truncation_selection` over heap indices. -/
def truncation_selectionH (popsize : Nat) (trunc : ℚ) (ids : List Nat) : List Nat :=
  jsSlice ids (Int.toNat ⌊(popsize : ℚ) * trunc⌋) (popsize - 1)

/-- `mapAndTryAddIndToPop` in the heap model: an admitted individual is a
fresh allocation appended to the heap, and the population list gains its
index. -/
def mapAndTryAddH (G : Grammar) (maxdepth : Nat) (heap : List Ind)
    (cache : List String) (pop : List Nat) (g : List Nat) :
    JsOut (List Ind × List String × List Nat) :=
  match mapGenomeToIndividual G maxdepth g with
  | .hang => .hang
  | .throw => .throw
  | .ret none => .ret (heap, cache, pop)
  | .ret (some ind) =>
    if cache.contains ind.phen then .ret (heap, cache, pop)
    else .ret (heap ++ [ind], cache ++ [ind.phen], pop ++ [heap.length])

/-- The `while (newpop.length < this.popsize)` loop of `create_new_pop`.
`fuel` bounds the number of iterations; the loop has no bound of its own,
so exhausted fuel is reported as `.hang`.  Each iteration follows the
source: the give-up branch creates one random individual and `continue`s
without touching `tries`; the breeding branch samples two parents, crosses
over, possibly mutates, and gates each child through the novelty cache,
breaking out as soon as the population is full. -/
def fillLoop (cfg : Cfg) (orc : Orc) (parents : List Nat) :
    Nat → Nat → List Nat → List Ind → List String → OCtr →
    JsOut (List Nat × List Ind × List String × OCtr)
  | 0, _, _, _, _, _ => .hang
  | fuel + 1, tries, newpop, heap, cache, ctr =>
    if newpop.length < cfg.popsize then
      if tries > cfg.popsize * 2 then
        let g := random_ind cfg.genomelength cfg.maxcodon (fun t => orc.ints (ctr.i + t))
        let ctr' : OCtr := { ctr with i := ctr.i + cfg.genomelength }
        match mapAndTryAddH cfg.G cfg.maxdepth heap cache newpop g with
        | .hang => .hang
        | .throw => .throw
        | .ret (heap', cache', newpop') =>
          fillLoop cfg orc parents fuel tries newpop' heap' cache' ctr'
      else
        if parents.length < 2 then .throw
        else
          let pick := orc.picks ctr.p
          let ctr1 : OCtr := { ctr with p := ctr.p + 1 }
          let id0 := parents.getD (pick.1 % parents.length) 0
          let id1 := parents.getD (pick.2 % parents.length) 0
          match heap.get? id0, heap.get? id1 with
          | some ind0, some ind1 =>
            let draw := orc.ints ctr1.i
            let ctr2 : OCtr := { ctr1 with i := ctr1.i + 1 }
            let ch := crossover ind0.genome ind1.genome ind0.usedC ind1.usedC draw
            let r0 := orc.reals ctr2.r
            let ctr3 : OCtr := { ctr2 with r := ctr2.r + 1 }
            let g0ctr : List Nat × OCtr :=
              if r0 < cfg.pmut then
                (mutate ch.1 ind0.usedC cfg.maxcodon (orc.ints ctr3.i) (orc.ints (ctr3.i + 1)),
                 { ctr3 with i := ctr3.i + 2 })
              else (ch.1, ctr3)
            match mapAndTryAddH cfg.G cfg.maxdepth heap cache newpop g0ctr.1 with
            | .hang => .hang
            | .throw => .throw
            | .ret (heap1, cache1, newpop1) =>
              let tries1 := tries + 1
              if newpop1.length = cfg.popsize then .ret (newpop1, heap1, cache1, g0ctr.2)
              else
                let r1 := orc.reals g0ctr.2.r
                let ctr4 : OCtr := { g0ctr.2 with r := g0ctr.2.r + 1 }
                let g1ctr : List Nat × OCtr :=
                  if r1 < cfg.pmut then
                    (mutate ch.2 ind1.usedC cfg.maxcodon (orc.ints ctr4.i) (orc.ints (ctr4.i + 1)),
                     { ctr4 with i := ctr4.i + 2 })
                  else (ch.2, ctr4)
                match mapAndTryAddH cfg.G cfg.maxdepth heap1 cache1 newpop1 g1ctr.1 with
                | .hang => .hang
                | .throw => .throw
                | .ret (heap2, cache2, newpop2) =>
                  fillLoop cfg orc parents fuel (tries1 + 1) newpop2 heap2 cache2 g1ctr.2
          | _, _ => .throw
    else .ret (newpop, heap, cache, ctr)

/-- `create_new_pop(parents)`: seed the new population with the last
element of the current (possibly just sorted) population, then fill.  On
an empty population the elitism push stores `undefined`; modelled as a
crash since every later use of that entry crashes (never reached when
`popsize >= 1`). -/
def create_new_popH (cfg : Cfg) (orc : Orc) (popIds : List Nat)
    (parents : List Nat) (heap : List Ind) (cache : List String)
    (ctr : OCtr) (fuel : Nat) :
    JsOut (List Nat × List Ind × List String × OCtr) :=
  match popIds.getLast? with
  | none => .throw
  | some e => fillLoop cfg orc parents fuel 0 [e] heap cache ctr

/-- Outcome of one `tell` call: normal return, an exception escaping the
call with the mutations already made kept (`err`), or a hang. -/
inductive TellOut where
  | hang : TellOut
  | err : EState → TellOut
  | ok : EState → OCtr → TellOut
deriving DecidableEq, Repr

/-- `tell(fitvals)`: assign fitness in place, rescan for the best-ever
reference, select parents (direct selection when interactive, sort +
truncation otherwise; the sort reassigns `this.pop`), then replace the
population.  `print_statistics` only writes to the console/DOM and is
omitted.  On an exception, the state mutated so far is kept (in the
unexercised case of a throw from inside `bestScanLoop` or `fillLoop`,
partial updates local to that loop are approximated by the state at its
entry). -/
def tellH (cfg : Cfg) (orc : Orc) (st : EState) (fitvals : List Int)
    (ctr : OCtr) (fuel : Nat) : TellOut :=
  let assigned := assignLoop st.popIds fitvals 0 cfg.popsize st.heap
  if assigned.2 then .err { st with heap := assigned.1 }
  else
    let heap1 := assigned.1
    match bestScanLoop cfg.maximise heap1 st.popIds 0 cfg.popsize st.bestId with
    | .hang => .hang
    | .throw => .err { st with heap := heap1 }
    | .ret best1 =>
      let sel : List Nat × List Nat :=
        if cfg.interactive then (st.popIds, direct_selectionH heap1 st.popIds)
        else
          let sorted := sortH cfg.maximise heap1 st.popIds
          (sorted, truncation_selectionH cfg.popsize cfg.trunc sorted)
      match create_new_popH cfg orc sel.1 sel.2 heap1 st.cache ctr fuel with
      | .hang => .hang
      | .throw => .err ⟨heap1, sel.1, best1, st.cache⟩
      | .ret (newpop, heap2, cache2, ctr') => .ok ⟨heap2, newpop, best1, cache2⟩ ctr'

/-- `init()`: draw random genomes through the admission gate until the
population is full, then set `best_ever` to the first individual.  The
loop is unbounded in the source; fuel exhaustion is `.hang`. -/
def initH (cfg : Cfg) (orc : Orc) :
    Nat → List Ind → List String → List Nat → OCtr → JsOut (EState × OCtr)
  | 0, _, _, _, _ => .hang
  | fuel + 1, heap, cache, popIds, ctr =>
    if popIds.length < cfg.popsize then
      let g := random_ind cfg.genomelength cfg.maxcodon (fun t => orc.ints (ctr.i + t))
      let ctr' : OCtr := { ctr with i := ctr.i + cfg.genomelength }
      match mapAndTryAddH cfg.G cfg.maxdepth heap cache popIds g with
      | .hang => .hang
      | .throw => .throw
      | .ret (heap', cache', popIds') => initH cfg orc fuel heap' cache' popIds' ctr'
    else .ret (⟨heap, popIds, popIds.head?, cache⟩, ctr)

/-- The fitness of the individual `this.best_ever` refers to. -/
def bestEverFit (st : EState) : Option JFit :=
  st.bestId.bind (fun id => (st.heap.get? id).map (fun i => i.fit))

/-! ## A concrete interactive run

An engine as built by `new GE(null, grammar, 2, …, pmut = 0, trunc = 0,
maxdepth = 2, genomelength = 4)` on the spec's example grammar: interactive
mode, so `this.fitness` is the dummy with `maximise = true`.  The oracle
values below drive `init()` to admit the genomes `[0,0,0,0]` and
`[1,0,0,0]`, and each subsequent `create_new_pop` to reject cached
offspring until its give-up branch admits one fresh random individual. -/

/-- The interactive engine configuration used by the concrete run. -/
def cfgI : Cfg := ⟨exG, 2, 0, 0, 2, 4, true, true⟩

/-- The `mt.int()` values of the concrete run: two initial genomes, three
discarded crossover draws, the genome `[2,0,1,0]`, three more discarded
crossover draws, the genome `[2,1,0,0]`. -/
def intsI : List Nat := [0, 0, 0, 0, 1, 0, 0, 0, 0, 0, 0, 2, 0, 1, 0, 0, 0, 0, 2, 1, 0, 0]

/-- The oracle of the concrete run: `mt.random()` always `0` (with
`pmut = 0` the mutation gate `mt.random() < pmut` is always false), and
`_.sampleSize(parents, 2)` always picks the first two parents. -/
def orcI : Orc := ⟨fun k => intsI.getD k 0, fun _ => 0, fun _ => (0, 1)⟩

/-- The state after `init()`: two individuals, `best_ever` aliasing
`pop[0]`. -/
def stInit : EState :=
  ⟨[⟨[0, 0, 0, 0], "0", 0, .null⟩, ⟨[1, 0, 0, 0], "1", 0, .null⟩],
   [0, 1], some 0, ["0", "1"]⟩

/-- The state after `tell([3, 10])`: `best_ever` now aliases the second
individual (fitness 10), which was `pop[1]` — the elitism slot — and so
survives into the next population. -/
def stTell1 : EState :=
  ⟨[⟨[0, 0, 0, 0], "0", 0, .num 3⟩, ⟨[1, 0, 0, 0], "1", 0, .num 10⟩,
    ⟨[2, 0, 1, 0], "01", 2, .null⟩],
   [1, 2], some 1, ["0", "1", "01"]⟩

/-- The state after the further `tell([2, 1])`: the in-place fitness
assignment wrote `2` into the very individual `best_ever` references, so
the best-ever fitness fell from 10 to 2. -/
def stTell2 : EState :=
  ⟨[⟨[0, 0, 0, 0], "0", 0, .num 3⟩, ⟨[1, 0, 0, 0], "1", 0, .num 2⟩,
    ⟨[2, 0, 1, 0], "01", 2, .num 1⟩, ⟨[2, 1, 0, 0], "10", 2, .null⟩],
   [2, 3], some 1, ["0", "1", "01", "10"]⟩

/-- The state in which `tell([5])` (one fitness value for a population of
two) leaves the engine when its `TypeError` escapes: fitness slots already
mutated (`5` and `undefined`). -/
def stShortTell : EState :=
  ⟨[⟨[0, 0, 0, 0], "0", 0, .num 5⟩, ⟨[1, 0, 0, 0], "1", 0, .undef⟩],
   [0, 1], some 0, ["0", "1"]⟩

/-- A population holding fitness values `-1` and `0`: the boundary case
separating JS truthiness from strict positivity. -/
def negPop : List Ind :=
  [⟨[0, 0], "0", 0, .num (-1)⟩, ⟨[1, 0], "1", 0, .num 0⟩]

/-- The selection pool the spec describes for interactive mode, written
from the spec's words (`every individual with strictly positive fitness;
if none qualifies, the pool falls back to the entire population`), to be
compared with `direct_selection`. -/
def specDirectPool (pop : List Ind) : List Ind :=
  let pos := pop.filter (fun x =>
    match x.fit.toNum with
    | some v => decide (0 < v)
    | none => false)
  if pos.length = 0 then pop else pos

/-- A two-member population with fitness `1` and `2`, for exercising the
`tell` sort in both directions. -/
def sortPop : List Ind :=
  [⟨[0], "a", 0, .num 1⟩, ⟨[1], "b", 0, .num 2⟩]

/-! # Claims -/

/-- **C1, counterexample.**  The claim's example genomes crash the mapper:
each of them is consumed entirely by its derivation, so
`mapGenomeToIndividual`'s final `i.next()` returns `{done: true}` and
`value[0]` throws a `TypeError` — no phenotype/`usedCodonCount` pair is
returned at all. -/
theorem gejs_c1_counterexample :
    mapGenomeToIndividual exG 2 [2, 0, 1] = .throw ∧
    mapGenomeToIndividual exG 2 [0] = .throw ∧
    mapGenomeToIndividual exG 2 [1] = .throw := by decide

/-- **C1, amended.**  When the derivation succeeds and at least one genome
position is unread, `mapGenomeToIndividual` returns the phenotype together
with `ind[2] = final cursor - 1` (the index of the last codon consumed,
not the count of codons consumed); when the derivation consumed the whole
genome it throws.  On the spec's example grammar, the padded genomes
`[0,0]`, `[2,0,1,0]`, `[1,0]` map to `"0"`, `"01"`, `"1"` with `ind[2]`
0, 2, 0 (the claim expected 1, 3, 1). -/
theorem gejs_c1_amended :
    (∀ (G : Grammar) (maxdepth : Nat) (g : List Nat) (p : String) (st : MState),
      mapGenomeToPhenotype G maxdepth (g.length + 1) 0 G.start ⟨g, 0⟩ = .ret (some (p, st)) →
      (st.cursor < st.genome.length →
        mapGenomeToIndividual G maxdepth g = .ret (some ⟨st.genome, p, st.cursor - 1, .null⟩)) ∧
      (st.genome.length ≤ st.cursor → mapGenomeToIndividual G maxdepth g = .throw)) ∧
    mapGenomeToIndividual exG 2 [0, 0] = .ret (some ⟨[0, 0], "0", 0, .null⟩) ∧
    mapGenomeToIndividual exG 2 [2, 0, 1, 0] = .ret (some ⟨[2, 0, 1, 0], "01", 2, .null⟩) ∧
    mapGenomeToIndividual exG 2 [1, 0] = .ret (some ⟨[1, 0], "1", 0, .null⟩) := by
  refine ⟨?_, by decide, by decide, by decide⟩
  intro G maxdepth g p st h
  constructor
  · intro hlt
    simp only [mapGenomeToIndividual, h, mnext]
    rcases hg : st.genome.get? st.cursor with _ | c
    · exact absurd (List.get?_eq_none.mp hg) (by omega)
    · simp [hg]
  · intro hge
    simp only [mapGenomeToIndividual, h, mnext]
    rcases hg : st.genome.get? st.cursor with _ | c
    · simp [hg]
    · obtain ⟨hc, -⟩ := List.get?_eq_some.mp hg
      omega

/-- **C1, witness for the amended theorem.**  Genome `[1, 0, 0]` maps with
one unread position left; the general clause yields its individual. -/
theorem gejs_c1_witness :
    mapGenomeToIndividual exG 2 [1, 0, 0] = .ret (some ⟨[1, 0, 0], "1", 0, .null⟩) :=
  (gejs_c1_amended.1 exG 2 [1, 0, 0] "1" ⟨[1, 0, 0], 1⟩ (by decide)).1 (by decide)

/-- **C2.**  On a grammar whose recursive nonterminal has only
directly-recursive productions, the depth-bound escape loop never finds a
production to stop at — no number of iterations makes its exit condition
true — and the whole mapping call hangs instead of failing with
`DepthBoundUnsatisfiable` as the spec requires. -/
theorem gejs_c2_unbounded_escape :
    (∀ (M codon fuel : Nat), escapeLoop ("<e>") [["<e>"]] M codon fuel = none) ∧
    mapGenomeToIndividual recG 0 [0] = .hang := by
  refine ⟨?_, by decide⟩
  intro M codon fuel
  induction fuel generalizing codon with
  | zero => rfl
  | succ n ih => simpa [escapeLoop, Nat.mod_one] using ih ((codon + 1) % M)

/-- A codon returned by the escape loop selects a production that does
not contain the nonterminal. -/
theorem escapeLoop_some_not_contains (s : String) (r : List (List String)) (M : Nat) :
    ∀ (fuel codon c' : Nat), escapeLoop s r M codon fuel = some c' →
      (r.getD (c' % r.length) []).contains s = false := by
  intro fuel
  induction fuel with
  | zero => intro codon c' h; cases h
  | succ n ih =>
    intro codon c' h
    simp only [escapeLoop] at h
    split at h
    · exact ih _ _ h
    · rename_i hc
      cases h
      simpa using hc

/-- If the escape loop makes no progress in `fuel` rounds, every
production reachable within `fuel` codon increments contains the
nonterminal. -/
theorem escapeLoop_none_all_contain (s : String) (r : List (List String)) (M : Nat)
    (hM : 0 < M) :
    ∀ (fuel codon : Nat), codon < M → escapeLoop s r M codon fuel = none →
      ∀ d < fuel, (r.getD (((codon + d) % M) % r.length) []).contains s = true := by
  intro fuel
  induction fuel with
  | zero => intro codon hc h d hd; omega
  | succ n ih =>
    intro codon hc h d hd
    simp only [escapeLoop] at h
    split at h
    · rename_i hcon
      cases d with
      | zero =>
        have h0 : (codon + 0) % M = codon := by
          rw [Nat.add_zero, Nat.mod_eq_of_lt hc]
        rw [h0]
        simpa using hcon
      | succ d' =>
        have hrec := ih ((codon + 1) % M) (Nat.mod_lt _ hM) h d' (by omega)
        have harith : (((codon + 1) % M) + d') % M = (codon + (d' + 1)) % M := by
          rw [Nat.mod_add_mod]
          congr 1
          omega
        rw [harith] at hrec
        exact hrec
    · cases h

/-- Starting from any codon below `maxcodon`, at most `r.length ≤
maxcodon` increments reach any chosen production index (the production
count divides `maxcodon` because `maxcodon` is the grammar's LCM). -/
theorem escape_coverage (L M codon j : Nat) (hL : 0 < L) (hdvd : L ∣ M) (hM : 0 < M)
    (hc : codon < M) (hj : j < L) :
    ∃ d < M, ((codon + d) % M) % L = j := by
  have hLM : L ≤ M := Nat.le_of_dvd hM hdvd
  refine ⟨(j + L - codon % L) % L, ?_, ?_⟩
  · have := Nat.mod_lt (j + L - codon % L) hL
    omega
  · rw [Nat.mod_mod_of_dvd _ hdvd, Nat.add_mod_mod]
    have h2 : codon + (j + L - codon % L) = (codon - codon % L) + (j + L) := by
      have hle := Nat.mod_le codon L
      have hlt := Nat.mod_lt codon hL
      omega
    rw [h2]
    have h3 : codon - codon % L = L * (codon / L) := by
      have := Nat.div_add_mod codon L
      omega
    rw [h3, Nat.add_comm (L * (codon / L)) (j + L), Nat.add_mul_mod_self_left,
      Nat.add_mod_right, Nat.mod_eq_of_lt hj]

/-- A member of the production list sits at some index below its
length. -/
theorem exists_index_of_mem_rules {p : List String} {r : List (List String)}
    (hp : p ∈ r) : ∃ j, j < r.length ∧ r.getD j [] = p := by
  obtain ⟨i, hi⟩ := List.mem_iff_get.mp hp
  refine ⟨i.val, i.isLt, ?_⟩
  rw [List.getD_eq_getElem?_getD, List.getElem?_eq_getElem i.isLt]
  simpa using hi

/-- The satisfiable half of the depth-bound escape: whenever some
production of the recursive nonterminal does not recurse into it, the
escape loop, given `maxcodon` rounds of fuel — at most `codonModulus`
attempts — terminates with a non-recursive production.  (The other half,
where every production recurses, diverges: see the C2 theorem.) -/
theorem escapeLoop_bounded_success (s : String) (r : List (List String)) (M : Nat)
    (hL : 0 < r.length) (hdvd : r.length ∣ M) (hM : 0 < M) (codon : Nat) (hc : codon < M)
    (hex : ∃ p ∈ r, p.contains s = false) :
    ∃ c', escapeLoop s r M codon M = some c' ∧
      (r.getD (c' % r.length) []).contains s = false := by
  cases he : escapeLoop s r M codon M with
  | none =>
    exfalso
    obtain ⟨p, hp, hpc⟩ := hex
    obtain ⟨j, hj, hgd⟩ := exists_index_of_mem_rules hp
    obtain ⟨d, hd, hdj⟩ := escape_coverage r.length M codon j hL hdvd hM hc hj
    have hall := escapeLoop_none_all_contain s r M hM M codon hc he d hd
    rw [hdj, hgd, hpc] at hall
    cases hall
  | some c' =>
    exact ⟨c', rfl, escapeLoop_some_not_contains s r M M codon c' he⟩

/-- **C3, counterexample.**  A `tell` with a fitness list longer than
`popsize` (3 values for a population of 2) is not rejected: the call runs
to completion, ignoring the extra value, and replaces the population —
the engine state after it differs from the state before. -/
theorem gejs_c3_counterexample :
    ([3, 10, 99] : List Int).length ≠ cfgI.popsize ∧
    initH cfgI orcI 8 [] [] [] ⟨0, 0, 0⟩ = .ret (stInit, ⟨8, 0, 0⟩) ∧
    tellH cfgI orcI stInit [3, 10, 99] ⟨8, 0, 0⟩ 16 = .ok stTell1 ⟨15, 6, 3⟩ ∧
    stTell1 ≠ stInit := by decide

/-- **C3, amended.**  `tell` performs no length validation at all: a
longer fitness list is silently accepted (population, cache and
`best_ever` all change), and a shorter one stores `undefined` into the
missing slots — the call then dies with a `TypeError` (from destructuring
a too-small parent sample), not a `ProtocolViolation`, with the fitness
mutations already applied. -/
theorem gejs_c3_amended :
    (tellH cfgI orcI stInit [3, 10, 99] ⟨8, 0, 0⟩ 16 = .ok stTell1 ⟨15, 6, 3⟩ ∧
      stTell1.popIds ≠ stInit.popIds ∧ stTell1.cache ≠ stInit.cache) ∧
    (tellH cfgI orcI stInit [5] ⟨8, 0, 0⟩ 16 = .err stShortTell ∧
      stShortTell.heap ≠ stInit.heap) := by decide

/-- **C6, counterexample.**  A full concrete run (`init`, `tell([3,10])`,
`tell([2,1])`) in which the `best_ever` fitness under maximisation falls
from 10 to 2: `best_ever` aliases the elitism survivor, and the next
`tell`'s in-place fitness assignment overwrites the aliased slot before
the best-ever rescan, which then cannot restore the lost value. -/
theorem gejs_c6_counterexample :
    cfgI.maximise = true ∧
    initH cfgI orcI 8 [] [] [] ⟨0, 0, 0⟩ = .ret (stInit, ⟨8, 0, 0⟩) ∧
    tellH cfgI orcI stInit [3, 10] ⟨8, 0, 0⟩ 16 = .ok stTell1 ⟨15, 6, 3⟩ ∧
    tellH cfgI orcI stTell1 [2, 1] ⟨15, 6, 3⟩ 16 = .ok stTell2 ⟨22, 12, 6⟩ ∧
    bestEverFit stTell1 = some (.num 10) ∧
    bestEverFit stTell2 = some (.num 2) ∧
    ¬ ((10 : Int) ≤ 2) := by decide

/-- **C9.**  `direct_selection` filters by JS truthiness of the fitness
value, not by strict positivity: on a population with fitness `-1` and
`0`, the code's pool is the single individual with fitness `-1`, while
the pool the claim describes would be empty and fall back to the whole
population.  (The source's own comment, `// fitness > 0`, documents the
claimed behaviour.) -/
theorem gejs_c9_truthiness :
    direct_selection negPop = [⟨[0, 0], "0", 0, .num (-1)⟩] ∧
    specDirectPool negPop = negPop ∧
    direct_selection negPop ≠ specDirectPool negPop := by decide

/-- **C8.**  Crossover of equal-length genomes: both children keep the
parents' full length; swapping the parents (with the same random draw)
yields the two children swapped; when `min(usedA, usedB) = 0` the children
are exact copies of the opposite parents; and otherwise the cut point
`idx` lies in `[0, min(usedA, usedB))`. -/
theorem gejs_c8_crossover (g0 g1 : List Nat) (c0 c1 draw : Nat)
    (hlen : g0.length = g1.length) :
    ((crossover g0 g1 c0 c1 draw).1.length = g0.length ∧
      (crossover g0 g1 c0 c1 draw).2.length = g0.length) ∧
    crossover g1 g0 c1 c0 draw =
      ((crossover g0 g1 c0 c1 draw).2, (crossover g0 g1 c0 c1 draw).1) ∧
    (min c0 c1 = 0 → crossover g0 g1 c0 c1 draw = (g1, g0)) ∧
    (0 < min c0 c1 → ∃ idx, idx < min c0 c1 ∧
      crossover g0 g1 c0 c1 draw =
        (g0.take idx ++ g1.drop idx, g1.take idx ++ g0.drop idx)) := by
  refine ⟨⟨?_, ?_⟩, ?_, ?_, ?_⟩
  · simp [crossover]
    omega
  · simp [crossover]
    omega
  · simp only [crossover, Nat.min_comm c1 c0]
  · intro h0
    simp [crossover, randrange, Nat.min_eq_zero_iff.mp, h0]
  · intro hpos
    refine ⟨draw % min c0 c1, Nat.mod_lt _ hpos, ?_⟩
    simp [crossover, randrange, Nat.pos_iff_ne_zero.mp hpos]

/-- **C8, witness.**  Concrete genomes of length 3 with used counts 2 and
1. -/
theorem gejs_c8_witness :
    ([1, 2, 3] : List Nat).length = ([4, 5, 6] : List Nat).length ∧
    (crossover [1, 2, 3] [4, 5, 6] 2 1 0).1.length = 3 := by
  refine ⟨by decide, ?_⟩
  have h := gejs_c8_crossover [1, 2, 3] [4, 5, 6] 2 1 0 (by decide)
  exact h.1.1

/-! ### The mapper never writes to the genome (C10) -/

/-- Symbol-list expansion preserves the genome carried by the iterator
state, provided each recursive call does. -/
theorem mapSymsWith_genome (terminals : List String)
    (rec : String → MState → JsOut (Option (String × MState)))
    (hrec : ∀ s st p st', rec s st = .ret (some (p, st')) → st'.genome = st.genome) :
    ∀ (syms : List String) (st : MState) (p : String) (st' : MState),
      mapSymsWith terminals rec syms st = .ret (some (p, st')) → st'.genome = st.genome := by
  intro syms
  induction syms with
  | nil =>
    intro st p st' h
    simp only [mapSymsWith, JsOut.ret.injEq, Option.some.injEq, Prod.mk.injEq] at h
    rw [← h.2]
  | cons sym rest ih =>
    intro st p st' h
    simp only [mapSymsWith] at h
    split at h
    · cases hm : mapSymsWith terminals rec rest st with
      | hang => simp [hm] at h
      | throw => simp [hm] at h
      | ret o =>
        simp only [hm] at h
        cases o with
        | none => simp at h
        | some v =>
          obtain ⟨str, st2⟩ := v
          simp only [JsOut.ret.injEq, Option.some.injEq, Prod.mk.injEq] at h
          rw [← h.2]
          exact ih st str st2 hm
    · cases hr : rec sym st with
      | hang => simp [hr] at h
      | throw => simp [hr] at h
      | ret o =>
        simp only [hr] at h
        cases o with
        | none => simp at h
        | some v =>
          obtain ⟨str, st1⟩ := v
          cases hm : mapSymsWith terminals rec rest st1 with
          | hang => simp [hm] at h
          | throw => simp [hm] at h
          | ret o2 =>
            simp only [hm] at h
            cases o2 with
            | none => simp at h
            | some v2 =>
              obtain ⟨str2, st2⟩ := v2
              simp only [JsOut.ret.injEq, Option.some.injEq, Prod.mk.injEq] at h
              rw [← h.2]
              exact (ih st1 str2 st2 hm).trans (hrec sym st str st1 hr)

/-- One `g.next()` step preserves the genome. -/
theorem mnext_genome (st : MState) (i c : Nat) (st' : MState)
    (h : mnext st = some (i, c, st')) : st'.genome = st.genome := by
  simp only [mnext] at h
  cases hg : st.genome.get? st.cursor with
  | none => rw [hg] at h; cases h
  | some codon =>
    rw [hg] at h
    simp only [Option.some.injEq, Prod.mk.injEq] at h
    rw [← h.2.2]

/-- `mapGenomeToPhenotype` never changes the genome: the depth-bound
escape only rewrites its local codon variable, and every read goes
through the iterator. -/
theorem mapGenomeToPhenotype_genome (G : Grammar) (maxdepth : Nat) :
    ∀ (fuel depth : Nat) (s : String) (st : MState) (p : String) (st' : MState),
      mapGenomeToPhenotype G maxdepth fuel depth s st = .ret (some (p, st')) →
      st'.genome = st.genome := by
  intro fuel
  induction fuel with
  | zero => intro depth s st p st' h; cases h
  | succ n ih =>
    intro depth s st p st' h
    have hrec : ∀ s₂ st₂ p₂ st₂', mapGenomeToPhenotype G maxdepth n (depth + 1) s₂ st₂ =
        .ret (some (p₂, st₂')) → st₂'.genome = st₂.genome :=
      fun s₂ st₂ p₂ st₂' hx => ih (depth + 1) s₂ st₂ p₂ st₂' hx
    cases hl : rulesLookup G.rules s with
    | none => simp [mapGenomeToPhenotype, hl] at h
    | some r =>
      cases hn : mnext st with
      | none => simp [mapGenomeToPhenotype, hl, hn] at h
      | some v =>
        obtain ⟨i, codon, st1⟩ := v
        have h1 : st1.genome = st.genome := mnext_genome st i codon st1 hn
        simp only [mapGenomeToPhenotype, hl, hn] at h
        split at h
        · cases h
        · split at h
          · split at h
            · split at h
              · cases h
              · exact (mapSymsWith_genome _ _ hrec _ st1 p st' h).trans h1
            · cases he : escapeLoop s r (getGrammarLCM G.rules) codon (getGrammarLCM G.rules) with
              | none => simp [he] at h
              | some codon' =>
                simp only [he] at h
                exact (mapSymsWith_genome _ _ hrec _ st1 p st' h).trans h1
          · exact (mapSymsWith_genome _ _ hrec _ st1 p st' h).trans h1

/-- **C10.**  Mapping never modifies the genome: any successful
`mapGenomeToPhenotype` call returns an iterator state carrying the genome
it was given, and the individual built by `mapGenomeToIndividual`
contains exactly the input genome. -/
theorem gejs_c10_genome_frame :
    (∀ (G : Grammar) (maxdepth fuel depth : Nat) (s : String) (st : MState)
        (p : String) (st' : MState),
      mapGenomeToPhenotype G maxdepth fuel depth s st = .ret (some (p, st')) →
      st'.genome = st.genome) ∧
    (∀ (G : Grammar) (maxdepth : Nat) (g : List Nat) (ind : Ind),
      mapGenomeToIndividual G maxdepth g = .ret (some ind) → ind.genome = g) := by
  constructor
  · intro G maxdepth fuel depth s st p st' h
    exact mapGenomeToPhenotype_genome G maxdepth fuel depth s st p st' h
  · intro G maxdepth g ind h
    simp only [mapGenomeToIndividual] at h
    cases hm : mapGenomeToPhenotype G maxdepth (g.length + 1) 0 G.start ⟨g, 0⟩ with
    | hang => simp [hm] at h
    | throw => simp [hm] at h
    | ret o =>
      simp only [hm] at h
      cases o with
      | none => simp at h
      | some v =>
        obtain ⟨p, st⟩ := v
        have hg : st.genome = g := mapGenomeToPhenotype_genome G maxdepth _ 0 G.start ⟨g, 0⟩ p st hm
        cases hn : mnext st with
        | none => simp [hn] at h
        | some w =>
          obtain ⟨k, c, st2⟩ := w
          simp only [hn, JsOut.ret.injEq, Option.some.injEq] at h
          rw [← h]
          exact hg

/-- **C10, witness.**  The individual mapped from `[2,0,1,0]` carries that
genome unchanged. -/
theorem gejs_c10_witness :
    (⟨[2, 0, 1, 0], "01", 2, .null⟩ : Ind).genome = [2, 0, 1, 0] :=
  gejs_c10_genome_frame.2 exG 2 [2, 0, 1, 0] ⟨[2, 0, 1, 0], "01", 2, .null⟩ (by decide)

/-! ### Global novelty (C5) -/

/-- **C5.**  Starting from any state in which the admitted individuals
have pairwise-distinct phenotypes all recorded in the cache — in
particular from the constructor's empty cache and empty population —
any further sequence of admissions through `mapAndTryAddIndToPop`
preserves that: all distinct admitted individuals keep pairwise-distinct
phenotypes, every admitted phenotype is in the cache, and the cache only
ever grows. -/
theorem gejs_c5_novelty (G : Grammar) (maxdepth : Nat) (gs : List (List Nat))
    (cache : List String) (acc : List Ind)
    (hnodup : (acc.map (fun i => i.phen)).Nodup)
    (hsub : ∀ i ∈ acc, i.phen ∈ cache) :
    ((runAdmissions G maxdepth gs cache acc).2.map (fun i => i.phen)).Nodup ∧
    (∀ i ∈ (runAdmissions G maxdepth gs cache acc).2,
      i.phen ∈ (runAdmissions G maxdepth gs cache acc).1) ∧
    (∀ s ∈ cache, s ∈ (runAdmissions G maxdepth gs cache acc).1) := by
  induction gs generalizing cache acc with
  | nil => exact ⟨hnodup, hsub, fun s hs => hs⟩
  | cons g gs ih =>
    simp only [runAdmissions, mapAndTryAddIndToPop]
    cases hm : mapGenomeToIndividual G maxdepth g with
    | hang => exact ⟨hnodup, hsub, fun s hs => hs⟩
    | throw => exact ⟨hnodup, hsub, fun s hs => hs⟩
    | ret o =>
      cases o with
      | none => exact ih cache acc hnodup hsub
      | some ind =>
        by_cases hc : cache.contains ind.phen
        · simp only [hc, if_true]
          exact ih cache acc hnodup hsub
        · simp only [hc, if_false]
          have hnotmem : ind.phen ∉ cache := by
            intro hmem
            exact hc (List.elem_eq_true_of_mem hmem)
          have hnodup' : ((acc ++ [ind]).map (fun i => i.phen)).Nodup := by
            rw [List.map_append, List.nodup_append]
            refine ⟨hnodup, List.nodup_singleton _, ?_⟩
            intro a ha hb
            simp only [List.map_cons, List.map_nil, List.mem_singleton] at hb
            obtain ⟨i, hi, hip⟩ := List.mem_map.mp ha
            exact hnotmem (hb ▸ hip ▸ hsub i hi)
          have hsub' : ∀ i ∈ acc ++ [ind], i.phen ∈ cache ++ [ind.phen] := by
            intro i hi
            rcases List.mem_append.mp hi with hi | hi
            · exact List.mem_append.mpr (Or.inl (hsub i hi))
            · simp only [List.mem_singleton] at hi
              exact List.mem_append.mpr (Or.inr (by simp [hi]))
          obtain ⟨h1, h2, h3⟩ := ih (cache ++ [ind.phen]) (acc ++ [ind]) hnodup' hsub'
          exact ⟨h1, h2, fun s hs => h3 s (List.mem_append.mpr (Or.inl hs))⟩

/-- **C5, witness.**  Starting the gate from the constructor's empty cache
and population, feeding the mapped genome for `"0"` twice admits it only
once. -/
theorem gejs_c5_witness :
    (([] : List Ind).map (fun i => i.phen)).Nodup ∧
    ((runAdmissions exG 2 [[0, 0], [0, 0], [1, 0]] [] []).2.map (fun i => i.phen)).Nodup := by
  refine ⟨by decide, ?_⟩
  exact (gejs_c5_novelty exG 2 [[0, 0], [0, 0], [1, 0]] [] [] (by decide) (by decide)).1

/-! ### The codon modulus (C7) -/

/-- With enough fuel, the embedded `gcd` is the mathematical gcd. -/
theorem gcdAux_eq (fuel : Nat) : ∀ (a b : Nat), b ≤ fuel → gcdAux fuel a b = Nat.gcd a b := by
  induction fuel with
  | zero =>
    intro a b hb
    interval_cases b
    simp [gcdAux]
  | succ n ih =>
    intro a b hb
    cases b with
    | zero => simp [gcdAux]
    | succ k =>
      have hk : a % (k + 1) ≤ n := by
        have := Nat.mod_lt a (y := k + 1) (by omega)
        omega
      calc gcdAux (n + 1) a (k + 1) = gcdAux n (k + 1) (a % (k + 1)) := rfl
        _ = Nat.gcd (k + 1) (a % (k + 1)) := ih (k + 1) (a % (k + 1)) hk
        _ = Nat.gcd (a % (k + 1)) (k + 1) := Nat.gcd_comm _ _
        _ = Nat.gcd (k + 1) a := (Nat.gcd_rec (k + 1) a).symm
        _ = Nat.gcd a (k + 1) := Nat.gcd_comm _ _

/-- The source's `gcd` is the mathematical gcd. -/
theorem gcdJs_eq (a b : Nat) : gcdJs a b = Nat.gcd a b := gcdAux_eq b a b le_rfl

/-- The source's `lcm` is the mathematical lcm. -/
theorem lcmJs_eq (a b : Nat) : lcmJs a b = Nat.lcm a b := by
  unfold lcmJs Nat.lcm
  rw [gcdJs_eq]
  rcases Nat.eq_zero_or_pos (Nat.gcd a b) with hg | hg
  · obtain ⟨ha, hb⟩ := Nat.gcd_eq_zero_iff.mp hg
    subst ha; subst hb; simp
  · obtain ⟨t, ht⟩ := Nat.gcd_dvd_left a b
    set g := Nat.gcd a b with hgdef
    rw [ht, Nat.mul_div_cancel_left t hg, Nat.mul_assoc,
      Nat.mul_div_cancel_left (t * b) hg]

/-- The fold in `lcmAll` is the fold of the mathematical lcm. -/
theorem lcmAll_eq (ns : List Nat) : lcmAll ns = ns.foldl Nat.lcm 1 := by
  unfold lcmAll
  suffices h : ∀ acc, ns.foldl lcmJs acc = ns.foldl Nat.lcm acc from h 1
  induction ns with
  | nil => intro acc; rfl
  | cons n ns ih => intro acc; simp only [List.foldl_cons, lcmJs_eq]; exact ih _

/-- The accumulator divides an lcm fold. -/
theorem dvd_foldl_lcm_acc (ns : List Nat) : ∀ acc, acc ∣ ns.foldl Nat.lcm acc := by
  induction ns with
  | nil => intro acc; exact dvd_refl _
  | cons n ns ih =>
    intro acc
    exact dvd_trans (Nat.dvd_lcm_left acc n) (ih (Nat.lcm acc n))

/-- Every member divides an lcm fold. -/
theorem dvd_foldl_lcm_mem (ns : List Nat) :
    ∀ acc x, x ∈ ns → x ∣ ns.foldl Nat.lcm acc := by
  induction ns with
  | nil => intro acc x hx; cases hx
  | cons n ns ih =>
    intro acc x hx
    rcases List.mem_cons.mp hx with rfl | hx
    · exact dvd_trans (Nat.dvd_lcm_right acc x) (dvd_foldl_lcm_acc ns (Nat.lcm acc x))
    · exact ih (Nat.lcm acc n) x hx

/-- An lcm fold of positive numbers over a positive accumulator is
positive. -/
theorem foldl_lcm_pos (ns : List Nat) :
    ∀ acc, 0 < acc → (∀ x ∈ ns, 0 < x) → 0 < ns.foldl Nat.lcm acc := by
  induction ns with
  | nil => intro acc h _; exact h
  | cons n ns ih =>
    intro acc hacc hmem
    refine ih (Nat.lcm acc n) ?_ (fun x hx => hmem x (List.mem_cons_of_mem _ hx))
    have hn : 0 < n := hmem n (List.mem_cons_self n ns)
    have h1 : Nat.lcm acc n ≠ 0 := Nat.lcm_ne_zero (by omega) (by omega)
    omega

/-- An lcm fold divides any common multiple of the accumulator and the
members. -/
theorem foldl_lcm_dvd (ns : List Nat) :
    ∀ acc m, (∀ x ∈ ns, x ∣ m) → acc ∣ m → ns.foldl Nat.lcm acc ∣ m := by
  induction ns with
  | nil => intro acc m _ hacc; exact hacc
  | cons n ns ih =>
    intro acc m hmem hacc
    exact ih (Nat.lcm acc n) m (fun x hx => hmem x (List.mem_cons_of_mem n hx))
      (Nat.lcm_dvd hacc (hmem n (List.mem_cons_self n ns)))

/-- Counting residues: when `k ∣ M`, exactly `M / k` of the codons in
`[0, M)` select any given residue `j < k`. -/
theorem count_residues (M k j : Nat) (hk : 0 < k) (hdvd : k ∣ M) (hj : j < k) :
    ((Finset.range M).filter (fun c => c % k = j)).card = M / k := by
  obtain ⟨q, rfl⟩ := hdvd
  have himg : (Finset.range (k * q)).filter (fun c => c % k = j) =
      (Finset.range q).image (fun i => i * k + j) := by
    ext c
    simp only [Finset.mem_filter, Finset.mem_range, Finset.mem_image]
    constructor
    · rintro ⟨hlt, hmod⟩
      refine ⟨c / k, ?_, ?_⟩
      · refine (Nat.div_lt_iff_lt_mul hk).mpr ?_
        rw [Nat.mul_comm q k]
        exact hlt
      · have hdm := Nat.div_add_mod c k
        have hcm : c / k * k = k * (c / k) := Nat.mul_comm _ _
        omega
    · rintro ⟨i, hi, rfl⟩
      constructor
      · have h1 : (i + 1) * k = i * k + k := by ring
        have h2 : (i + 1) * k ≤ q * k := Nat.mul_le_mul_right k (by omega)
        have h3 : q * k = k * q := Nat.mul_comm q k
        omega
      · rw [Nat.add_comm (i * k) j, Nat.add_mul_mod_self_right,
          Nat.mod_eq_of_lt hj]
  rw [himg, Finset.card_image_of_injective _ ?_, Finset.card_range,
    Nat.mul_div_cancel_left q hk]
  intro a b hab
  simp only at hab
  have : a * k = b * k := by omega
  exact Nat.eq_of_mul_eq_mul_right hk this

/-- **C7.**  For a grammar all of whose nonterminals have at least one
production, `codonModulus = getGrammarLCM` is the least common multiple of
the production counts (each count divides it, and it divides any common
multiple), it is at least 1, and for each nonterminal with `k` productions
every production index is selected by exactly `codonModulus / k` of the
codon values in `[0, codonModulus)` — a uniform codon draw selects every
production with equal probability. -/
theorem gejs_c7_codon_modulus (rules : List (String × List (List String)))
    (hpos : ∀ pr ∈ rules, 0 < pr.2.length) :
    1 ≤ getGrammarLCM rules ∧
    (∀ pr ∈ rules, pr.2.length ∣ getGrammarLCM rules) ∧
    (∀ m : Nat, (∀ pr ∈ rules, pr.2.length ∣ m) → getGrammarLCM rules ∣ m) ∧
    (∀ pr ∈ rules, ∀ j < pr.2.length,
      ((Finset.range (getGrammarLCM rules)).filter
        (fun c => c % pr.2.length = j)).card = getGrammarLCM rules / pr.2.length) := by
  have heq : getGrammarLCM rules = (rules.map (fun pr => pr.2.length)).foldl Nat.lcm 1 := by
    unfold getGrammarLCM
    exact lcmAll_eq _
  have hdvd : ∀ pr ∈ rules, pr.2.length ∣ getGrammarLCM rules := by
    intro pr hpr
    rw [heq]
    exact dvd_foldl_lcm_mem _ 1 _ (List.mem_map.mpr ⟨pr, hpr, rfl⟩)
  refine ⟨?_, hdvd, ?_, ?_⟩
  · rw [heq]
    refine foldl_lcm_pos _ 1 one_pos ?_
    intro x hx
    obtain ⟨pr, hpr, hxe⟩ := List.mem_map.mp hx
    exact hxe ▸ hpos pr hpr
  · intro m hm
    rw [heq]
    refine foldl_lcm_dvd _ 1 m ?_ (one_dvd m)
    intro x hx
    obtain ⟨pr, hpr, hxe⟩ := List.mem_map.mp hx
    exact hxe ▸ hm pr hpr
  · intro pr hpr j hj
    exact count_residues _ _ j (hpos pr hpr) (hdvd pr hpr) hj

/-- **C7, witness.**  On the example grammar, `codonModulus = 3` and the
residue class of 2 modulo the 3 productions contains exactly `3 / 3 = 1`
codon. -/
theorem gejs_c7_witness :
    (∀ pr ∈ exG.rules, 0 < pr.2.length) ∧
    ((Finset.range (getGrammarLCM exG.rules)).filter
      (fun c => c % 3 = 2)).card = getGrammarLCM exG.rules / 3 := by
  refine ⟨by decide, ?_⟩
  have h := (gejs_c7_codon_modulus exG.rules (by decide)).2.2.2
    ("<e>", [["0"], ["1"], ["<e>", "<e>"]]) (by decide) 2 (by decide)
  exact h

/-! ### The best-ever scan (C6, amended) -/

/-- Whether a fitness slot holds a number. -/
def isNum : JFit → Bool
  | .num _ => true
  | _ => false

/-- The best-ever scan abstracted over the comparison: replace the running
best whenever `le (key best) (key next)` holds. -/
def selScan (le : Int → Int → Bool) (key : Ind → Int) (b : Ind) (l : List Ind) : Ind :=
  l.foldl (fun b x => if le (key b) (key x) then x else b) b

/-- `(a :: l).getLast? = l.getLast?` for nonempty `l`. -/
theorem getLast?_cons_of_ne_nil {α : Type} (a : α) (l : List α) (h : l ≠ []) :
    (a :: l).getLast? = l.getLast? := by
  cases l with
  | nil => exact absurd rfl h
  | cons b t => exact List.getLast?_cons_cons

/-- The abstract scan returns an element whose key dominates every
scanned key (including the seed's), taken from the scanned material, and
equal-key ties resolve to the latest-scanned element: the result is the
last element of seed-then-list whose key equals the result's key. -/
theorem selScan_spec (le : Int → Int → Bool) (key : Ind → Int)
    (href : ∀ a, le a a = true)
    (htot : ∀ a c, le a c = true ∨ le c a = true)
    (htr : ∀ a c d, le a c = true → le c d = true → le a d = true) :
    ∀ (l : List Ind) (b : Ind),
      (∀ x ∈ l, le (key x) (key (selScan le key b l)) = true) ∧
      le (key b) (key (selScan le key b l)) = true ∧
      (selScan le key b l = b ∨ selScan le key b l ∈ l) ∧
      ((b :: l).filter (fun x => key x = key (selScan le key b l))).getLast? =
        some (selScan le key b l) := by
  intro l
  induction l with
  | nil =>
    intro b
    refine ⟨fun x hx => absurd hx (List.not_mem_nil x), href _, Or.inl rfl, ?_⟩
    simp [selScan]
  | cons x xs ih =>
    intro b
    by_cases hbx : le (key b) (key x) = true
    · have hsel : selScan le key b (x :: xs) = selScan le key x xs := by
        simp [selScan, hbx]
      obtain ⟨ih1, ih2, ih3, ih4⟩ := ih x
      have hmem : selScan le key x xs ∈ x :: xs := by
        rcases ih3 with h | h
        · rw [h]
          exact List.mem_cons_self x xs
        · exact List.mem_cons_of_mem x h
      refine ⟨?_, ?_, ?_, ?_⟩
      · intro y hy
        rcases List.mem_cons.mp hy with rfl | hy
        · exact hsel ▸ ih2
        · exact hsel ▸ ih1 y hy
      · exact hsel ▸ htr _ _ _ hbx ih2
      · rw [hsel]
        exact Or.inr hmem
      · rw [hsel]
        rw [List.filter_cons]
        by_cases hPb : key b = key (selScan le key x xs)
        · rw [if_pos (by simp [hPb])]
          have hne : (x :: xs).filter
              (fun z => key z = key (selScan le key x xs)) ≠ [] := by
            refine List.ne_nil_of_mem (a := selScan le key x xs) ?_
            exact List.mem_filter.mpr ⟨hmem, by simp⟩
          rw [getLast?_cons_of_ne_nil _ _ hne]
          exact ih4
        · rw [if_neg (by simp [hPb])]
          exact ih4
    · have hsel : selScan le key b (x :: xs) = selScan le key b xs := by
        simp [selScan, hbx]
      obtain ⟨ih1, ih2, ih3, ih4⟩ := ih b
      have hxb : le (key x) (key b) = true := (htot _ _).resolve_left hbx
      refine ⟨?_, ?_, ?_, ?_⟩
      · intro y hy
        rcases List.mem_cons.mp hy with rfl | hy
        · exact hsel ▸ htr _ _ _ hxb ih2
        · exact hsel ▸ ih1 y hy
      · exact hsel ▸ ih2
      · rcases ih3 with h | h
        · exact Or.inl (hsel ▸ h)
        · exact Or.inr (hsel ▸ List.mem_cons_of_mem x h)
      · rw [hsel]
        have hxr : ¬ key x = key (selScan le key b xs) := by
          intro hEq
          exact hbx (hEq ▸ ih2)
        have hsplit : (b :: x :: xs).filter
            (fun z => key z = key (selScan le key b xs)) =
            (b :: xs).filter (fun z => key z = key (selScan le key b xs)) := by
          simp [List.filter_cons, hxr]
        rw [hsplit]
        exact ih4

/-- With every fitness numeric, the maximising best-ever scan is the
abstract scan under `≤` on the numeric fitness. -/
theorem bestScan_eq_max :
    ∀ (pop : List Ind) (b : Ind), isNum b.fit = true → (∀ x ∈ pop, isNum x.fit = true) →
      bestScan true b pop = selScan (fun a c => decide (a ≤ c)) fitKey b pop := by
  intro pop
  induction pop with
  | nil => intro b _ _; rfl
  | cons x xs ih =>
    intro b hb hp
    have hx : isNum x.fit = true := hp x (List.mem_cons_self x xs)
    obtain ⟨vb, hvb⟩ : ∃ v, b.fit = .num v := by
      cases hfb : b.fit <;> simp [hfb, isNum] at hb ⊢
    obtain ⟨vx, hvx⟩ : ∃ v, x.fit = .num v := by
      cases hfx : x.fit <;> simp [hfx, isNum] at hx ⊢
    have hcond : ((true && jsGE x.fit b.fit) || (!true && jsLE x.fit b.fit)) =
        decide (fitKey b ≤ fitKey x) := by
      simp [jsGE, JFit.toNum, fitKey, hvb, hvx, ge_iff_le]
    have hstep : (if (true && jsGE x.fit b.fit) || (!true && jsLE x.fit b.fit)
        then x else b) = (if decide (fitKey b ≤ fitKey x) = true then x else b) := by
      rw [hcond]
    have hnum : isNum (if decide (fitKey b ≤ fitKey x) = true then x else b).fit = true := by
      split
      · exact hx
      · exact hb
    simp only [bestScan, List.foldl_cons, selScan] at ih ⊢
    rw [hstep]
    exact ih _ hnum (fun y hy => hp y (List.mem_cons_of_mem x hy))

/-- With every fitness numeric, the minimising best-ever scan is the
abstract scan under `≥` on the numeric fitness. -/
theorem bestScan_eq_min :
    ∀ (pop : List Ind) (b : Ind), isNum b.fit = true → (∀ x ∈ pop, isNum x.fit = true) →
      bestScan false b pop = selScan (fun a c => decide (c ≤ a)) fitKey b pop := by
  intro pop
  induction pop with
  | nil => intro b _ _; rfl
  | cons x xs ih =>
    intro b hb hp
    have hx : isNum x.fit = true := hp x (List.mem_cons_self x xs)
    obtain ⟨vb, hvb⟩ : ∃ v, b.fit = .num v := by
      cases hfb : b.fit <;> simp [hfb, isNum] at hb ⊢
    obtain ⟨vx, hvx⟩ : ∃ v, x.fit = .num v := by
      cases hfx : x.fit <;> simp [hfx, isNum] at hx ⊢
    have hstep : (if (false && jsGE x.fit b.fit) || (!false && jsLE x.fit b.fit)
        then x else b) = (if decide (fitKey x ≤ fitKey b) = true then x else b) := by
      have : ((false && jsGE x.fit b.fit) || (!false && jsLE x.fit b.fit)) =
          decide (fitKey x ≤ fitKey b) := by
        simp [jsLE, JFit.toNum, fitKey, hvb, hvx]
      rw [this]
    have hnum : isNum (if decide (fitKey x ≤ fitKey b) = true then x else b).fit = true := by
      split
      · exact hx
      · exact hb
    simp only [bestScan, List.foldl_cons, selScan] at ih ⊢
    rw [hstep]
    exact ih _ hnum (fun y hy => hp y (List.mem_cons_of_mem x hy))

/-- **C6, amended.**  Within a single `tell` call, once every compared
fitness is numeric, the best-ever scan picks an individual whose fitness
is optimal in the configured direction among the previous best-ever's
*current* (post-assignment) fitness and the population's fitness values,
and an equal-fitness tie always resolves to the most-recently-compared
individual.  (Across `tell` calls monotonicity fails, because the
in-place fitness assignment can overwrite the individual `best_ever`
aliases — see the counterexample.) -/
theorem gejs_c6_amended (maximise : Bool) (b : Ind) (pop : List Ind)
    (hb : isNum b.fit = true) (hp : ∀ x ∈ pop, isNum x.fit = true) :
    (∀ x ∈ pop, if maximise then fitKey x ≤ fitKey (bestScan maximise b pop)
      else fitKey (bestScan maximise b pop) ≤ fitKey x) ∧
    (if maximise then fitKey b ≤ fitKey (bestScan maximise b pop)
      else fitKey (bestScan maximise b pop) ≤ fitKey b) ∧
    (bestScan maximise b pop = b ∨ bestScan maximise b pop ∈ pop) ∧
    ((b :: pop).filter (fun x => fitKey x = fitKey (bestScan maximise b pop))).getLast? =
      some (bestScan maximise b pop) := by
  cases maximise with
  | true =>
    rw [bestScan_eq_max pop b hb hp]
    have h := selScan_spec (fun a c => decide (a ≤ c)) fitKey
      (fun a => by simp)
      (fun a c => by
        rcases le_total a c with h | h
        · exact Or.inl (by simpa using h)
        · exact Or.inr (by simpa using h))
      (fun a c d h1 h2 => by simp at h1 h2 ⊢; omega) pop b
    refine ⟨fun x hx => ?_, ?_, h.2.2.1, h.2.2.2⟩
    · have := h.1 x hx
      simpa using this
    · have := h.2.1
      simpa using this
  | false =>
    rw [bestScan_eq_min pop b hb hp]
    have h := selScan_spec (fun a c => decide (c ≤ a)) fitKey
      (fun a => by simp)
      (fun a c => by
        rcases le_total c a with h | h
        · exact Or.inl (by simpa using h)
        · exact Or.inr (by simpa using h))
      (fun a c d h1 h2 => by simp at h1 h2 ⊢; omega) pop b
    refine ⟨fun x hx => ?_, ?_, h.2.2.1, h.2.2.2⟩
    · have := h.1 x hx
      simpa using this
    · have := h.2.1
      simpa using this

/-- **C6, witness for the amended theorem.**  A two-member population
with a tie at fitness 7: the scan settles on the later-scanned tied
individual. -/
theorem gejs_c6_witness :
    (((⟨[1], "q", 0, .num 7⟩ : Ind) :: [⟨[2], "r", 0, .num 7⟩]).filter
        (fun x => fitKey x = fitKey (bestScan true ⟨[1], "q", 0, .num 7⟩
          [⟨[2], "r", 0, .num 7⟩]))).getLast? =
      some (bestScan true ⟨[1], "q", 0, .num 7⟩ [⟨[2], "r", 0, .num 7⟩]) :=
  (gejs_c6_amended true ⟨[1], "q", 0, .num 7⟩ [⟨[2], "r", 0, .num 7⟩]
    (by decide) (by decide)).2.2.2

/-! ### The `tell` sort and truncation selection (C4) -/

/-- **C4, counterexample.**  On a population with fitness values 1 and 2,
the code's `tell` sort and the sort direction the claim describes disagree
in both optimization directions: minimising, the code sorts by negated
fitness (descending by fitness), not ascending; maximising, it sorts
ascending, not by negated fitness. -/
theorem gejs_c4_counterexample :
    tellSort false sortPop = [⟨[1], "b", 0, .num 2⟩, ⟨[0], "a", 0, .num 1⟩] ∧
    specSort false sortPop = [⟨[0], "a", 0, .num 1⟩, ⟨[1], "b", 0, .num 2⟩] ∧
    tellSort false sortPop ≠ specSort false sortPop ∧
    tellSort true sortPop ≠ specSort true sortPop := by decide

/-- The sort `tell` performs is sorted under its key. -/
theorem insertionSort_key_sorted (key : Ind → Int) (l : List Ind) :
    (l.insertionSort (fun a b => key a ≤ key b)).Sorted (fun a b => key a ≤ key b) := by
  haveI : IsTotal Ind (fun a b => key a ≤ key b) := ⟨fun a b => le_total _ _⟩
  haveI : IsTrans Ind (fun a b => key a ≤ key b) := ⟨fun a b c hab hbc => le_trans hab hbc⟩
  exact List.sorted_insertionSort _ l

/-- In a list sorted by a key, every key is at most the last element's. -/
theorem sorted_key_le_getLast (key : Ind → Int) :
    ∀ (l : List Ind), l.Sorted (fun a b => key a ≤ key b) →
      ∀ x ∈ l, ∀ h : l ≠ [], key x ≤ key (l.getLast h) := by
  intro l
  induction l with
  | nil => intro _ x hx; cases hx
  | cons a rest ih =>
    intro hs x hx hne
    cases rest with
    | nil =>
      simp only [List.mem_singleton] at hx
      subst hx
      simp [List.getLast]
    | cons b t =>
      rw [List.getLast_cons (by simp : (b :: t) ≠ [])]
      rcases List.mem_cons.mp hx with rfl | hx'
      · exact (List.sorted_cons.mp hs).1 _ (List.getLast_mem (by simp))
      · exact ih (List.sorted_cons.mp hs).2 x hx' (by simp)

/-- `mapAndTryAddIndToPop` either leaves the target population alone or
appends exactly one new index to it. -/
theorem mapAndTryAddH_shape (G : Grammar) (maxdepth : Nat) (heap : List Ind)
    (cache : List String) (pop : List Nat) (g : List Nat)
    (h' : List Ind) (c' : List String) (p' : List Nat)
    (h : mapAndTryAddH G maxdepth heap cache pop g = .ret (h', c', p')) :
    p' = pop ∨ p' = pop ++ [heap.length] := by
  simp only [mapAndTryAddH] at h
  split at h
  · cases h
  · cases h
  · simp only [JsOut.ret.injEq, Prod.mk.injEq] at h
    exact Or.inl h.2.2.symm
  · split at h
    · simp only [JsOut.ret.injEq, Prod.mk.injEq] at h
      exact Or.inl h.2.2.symm
    · simp only [JsOut.ret.injEq, Prod.mk.injEq] at h
      exact Or.inr h.2.2.symm

/-- Appending one element does not change the head of a nonempty list. -/
theorem head?_append_singleton {α : Type} (l : List α) (x : α) (h : l ≠ []) :
    (l ++ [x]).head? = l.head? := by
  cases l with
  | nil => exact absurd rfl h
  | cons a t => rfl

/-- One admission step keeps the head of a nonempty population and keeps
it nonempty. -/
theorem mapAndTryAddH_head (G : Grammar) (maxdepth : Nat) (heap : List Ind)
    (cache : List String) (pop : List Nat) (g : List Nat)
    (h' : List Ind) (c' : List String) (p' : List Nat)
    (h : mapAndTryAddH G maxdepth heap cache pop g = .ret (h', c', p'))
    (hne : pop ≠ []) : p'.head? = pop.head? ∧ p' ≠ [] := by
  rcases mapAndTryAddH_shape G maxdepth heap cache pop g h' c' p' h with rfl | rfl
  · exact ⟨rfl, hne⟩
  · refine ⟨head?_append_singleton pop heap.length hne, ?_⟩
    simp

/-- The fill loop of `create_new_pop` only appends: the head of the new
population it returns is the head it started with. -/
theorem fillLoop_head (cfg : Cfg) (orc : Orc) (parents : List Nat) :
    ∀ (fuel tries : Nat) (newpop : List Nat) (heap : List Ind) (cache : List String)
      (ctr : OCtr) (ids : List Nat) (heap' : List Ind) (cache' : List String) (ctr' : OCtr),
      fillLoop cfg orc parents fuel tries newpop heap cache ctr =
        .ret (ids, heap', cache', ctr') →
      newpop ≠ [] → ids.head? = newpop.head? := by
  intro fuel
  induction fuel with
  | zero => intro tries newpop heap cache ctr ids hh cc tt h hne; cases h
  | succ n ih =>
    intro tries newpop heap cache ctr ids hh cc tt h hne
    simp only [fillLoop] at h
    split at h
    · split at h
      · -- give-up branch: one random individual through the gate
        split at h
        · cases h
        · cases h
        · rename_i heap1 cache1 newpop1 heq
          obtain ⟨hhd, hne1⟩ := mapAndTryAddH_head cfg.G cfg.maxdepth heap cache newpop _
            heap1 cache1 newpop1 heq hne
          exact (ih _ newpop1 heap1 cache1 _ ids hh cc tt h hne1).trans hhd
      · split at h
        · cases h
        · -- breeding branch
          split at h
          · -- both sampled parents found in the heap
            split at h
            · cases h
            · cases h
            · rename_i heap1 cache1 newpop1 heq1
              obtain ⟨hhd1, hne1⟩ := mapAndTryAddH_head cfg.G cfg.maxdepth heap cache newpop _
                heap1 cache1 newpop1 heq1 hne
              split at h
              · simp only [JsOut.ret.injEq, Prod.mk.injEq] at h
                rw [← h.1]
                exact hhd1
              · split at h
                · cases h
                · cases h
                · rename_i heap2 cache2 newpop2 heq2
                  obtain ⟨hhd2, hne2⟩ := mapAndTryAddH_head cfg.G cfg.maxdepth heap1 cache1
                    newpop1 _ heap2 cache2 newpop2 heq2 hne1
                  exact (ih _ newpop2 heap2 cache2 _ ids hh cc tt h hne2).trans
                    (hhd2.trans hhd1)
          · cases h
    · simp only [JsOut.ret.injEq, Prod.mk.injEq] at h
      rw [← h.1]

/-- `create_new_pop` seeds the new population with the last element of
the current population and the fill loop only appends after it. -/
theorem create_new_popH_head (cfg : Cfg) (orc : Orc) (popIds parents : List Nat)
    (heap : List Ind) (cache : List String) (ctr : OCtr) (fuel : Nat)
    (ids : List Nat) (heap' : List Ind) (cache' : List String) (ctr' : OCtr)
    (h : create_new_popH cfg orc popIds parents heap cache ctr fuel =
      .ret (ids, heap', cache', ctr')) :
    ids.head? = popIds.getLast? := by
  simp only [create_new_popH] at h
  cases hl : popIds.getLast? with
  | none => rw [hl] at h; cases h
  | some e =>
    rw [hl] at h
    have := fillLoop_head cfg orc parents fuel 0 [e] heap cache ctr ids heap' cache' ctr'
      h (by simp)
    simpa using this

/-- **C4, amended.**  In autonomous mode `tell` sorts ascending by
fitness when *maximising* and ascending by negated fitness when
*minimising* (the opposite of the claim's directions), so that in both
directions index `popsize - 1` holds the best-ranked individual; the
selection pool is then exactly the slice of sorted indices
`floor(popsize * trunc) .. popsize - 2`, and the individual at index
`popsize - 1` is the one `create_new_pop` copies into the head of the
next population. -/
theorem gejs_c4_amended (maximise : Bool) (popsize : Nat) (trunc : ℚ) (pop : List Ind)
    (hlen : pop.length = popsize) (hpos : 0 < popsize)
    (htr0 : 0 ≤ trunc) (htr1 : trunc < 1) :
    (tellSort maximise pop).length = popsize ∧
    (∃ lastI, (tellSort maximise pop).getLast? = some lastI ∧
      ∀ x ∈ tellSort maximise pop,
        (if maximise then fitKey x ≤ fitKey lastI else fitKey lastI ≤ fitKey x)) ∧
    Int.toNat ⌊(popsize : ℚ) * trunc⌋ ≤ popsize - 1 ∧
    truncation_selection popsize trunc (tellSort maximise pop) =
      ((tellSort maximise pop).drop (Int.toNat ⌊(popsize : ℚ) * trunc⌋)).take
        ((popsize - 1) - Int.toNat ⌊(popsize : ℚ) * trunc⌋) ∧
    (truncation_selection popsize trunc (tellSort maximise pop)).length =
      (popsize - 1) - Int.toNat ⌊(popsize : ℚ) * trunc⌋ ∧
    (∀ (cfg : Cfg) (orc : Orc) (popIds parents : List Nat) (heap : List Ind)
        (cache : List String) (ctr : OCtr) (fuel : Nat) (ids : List Nat)
        (heap' : List Ind) (cache' : List String) (ctr' : OCtr),
      create_new_popH cfg orc popIds parents heap cache ctr fuel =
        .ret (ids, heap', cache', ctr') → ids.head? = popIds.getLast?) := by
  have hslen : (tellSort maximise pop).length = popsize := by
    cases maximise with
    | true =>
      show (pop.insertionSort (fun a b => fitKey a ≤ fitKey b)).length = popsize
      rw [(List.perm_insertionSort _ pop).length_eq, hlen]
    | false =>
      show (pop.insertionSort (fun a b => -(fitKey a) ≤ -(fitKey b))).length = popsize
      rw [(List.perm_insertionSort _ pop).length_eq, hlen]
  have hfloor : Int.toNat ⌊(popsize : ℚ) * trunc⌋ ≤ popsize - 1 := by
    have h1 : (popsize : ℚ) * trunc < (popsize : ℚ) * 1 :=
      mul_lt_mul_of_pos_left htr1 (by exact_mod_cast hpos)
    rw [mul_one] at h1
    have h2 : ⌊(popsize : ℚ) * trunc⌋ < (popsize : ℤ) := by
      refine Int.floor_lt.mpr ?_
      exact_mod_cast h1
    omega
  refine ⟨hslen, ?_, hfloor, ?_, ?_, ?_⟩
  · have hne : tellSort maximise pop ≠ [] := by
      intro h0
      rw [h0] at hslen
      simp at hslen
      omega
    refine ⟨(tellSort maximise pop).getLast hne, List.getLast?_eq_getLast _ hne, ?_⟩
    intro x hx
    cases maximise with
    | true =>
      show fitKey x ≤ fitKey ((tellSort true pop).getLast hne)
      have hs := insertionSort_key_sorted fitKey pop
      exact sorted_key_le_getLast fitKey _ hs x hx hne
    | false =>
      show fitKey ((tellSort false pop).getLast hne) ≤ fitKey x
      have hs := insertionSort_key_sorted (fun i => -(fitKey i)) pop
      have h2 : -(fitKey x) ≤ -(fitKey ((tellSort false pop).getLast hne)) :=
        sorted_key_le_getLast (fun i => -(fitKey i)) _ hs x hx hne
      omega
  · simp only [truncation_selection, jsSlice]
    exact List.drop_take _ _ _
  · simp only [truncation_selection, jsSlice, List.drop_take, List.length_take,
      List.length_drop, hslen]
    omega
  · intro cfg orc popIds parents heap cache ctr fuel ids heap' cache' ctr' h
    exact create_new_popH_head cfg orc popIds parents heap cache ctr fuel
      ids heap' cache' ctr' h

/-- **C4, witness.**  A maximising population of three with truncation
fraction 0: the sorted population keeps its size. -/
theorem gejs_c4_witness :
    (tellSort true [⟨[0], "a", 0, .num 5⟩, ⟨[1], "b", 0, .num 9⟩,
      ⟨[2], "c", 0, .num 1⟩]).length = 3 :=
  (gejs_c4_amended true 3 0 [⟨[0], "a", 0, .num 5⟩, ⟨[1], "b", 0, .num 9⟩,
    ⟨[2], "c", 0, .num 1⟩] (by decide) (by decide) (by decide) (by decide)).1

end GEjs
